import Mathlib

/-!
# Verification of the HED language-server core (hed-lsp)

A shallow embedding, in Lean 4, of the algorithmic core of the hed-lsp
repository (a language server for HED annotations), together with theorems
settling a list of specification claims about it.

Strings are modelled as Lean `String` / `List Char`; the JavaScript string
operations used by the source (`trim`, `toLowerCase`, `split`, `indexOf`,
specific regular-expression replacements) are reimplemented character by
character, mirroring the semantics of the exact patterns the source uses
(ASCII inputs; the source's Unicode case folding is out of scope).
Floating-point similarity scores are modelled as real numbers.

Embedded components:
* `normalizeVersion`            — src/server/src/schemaManager.ts / part_007
* `removePlaceholders`, `validateHedString`, `findTagInString`
                                — src/server/src/validation.ts
* `SchemaManager.getChildTags`  — src/unnamed/part_007
* `analyzeCompletionContext`, `getTagAtOffset`
                                — src/server/src/completion.ts, documentParser.ts
* `EmbeddingsManager.findByKeyword`, `findSimilar`
                                — src/server/src/embeddings.ts
* `findDefinitionsInDocument`   — src/unnamed/part_008
-/

namespace HedLsp

/-! ## Shared character/string utilities (JS semantics) -/

/-- Whitespace as matched by the JavaScript `\s` class and `trim`/`trimEnd`,
restricted to the ASCII range. -/
def isWs (c : Char) : Bool :=
  c = ' ' || c = '\t' || c = '\n' || c = '\r' || c = '\x0b' || c = '\x0c'

/-- Drop leading whitespace (JS `trimStart`). -/
def trimL (l : List Char) : List Char := l.dropWhile isWs

/-- Drop trailing whitespace (JS `trimEnd`). -/
def trimR (l : List Char) : List Char := (trimL l.reverse).reverse

/-- JS `String.prototype.trim` on a character list. -/
def trimList (l : List Char) : List Char := trimR (trimL l)

/-- JS `String.prototype.trim`. -/
def jsTrim (s : String) : String := ⟨trimList s.data⟩

/-- JS `String.prototype.toLowerCase` (ASCII). -/
def jsToLower (s : String) : String := ⟨s.data.map Char.toLower⟩

/-! ## `normalizeVersion` (src/server/src/schemaManager.ts lines 14–23,
src/unnamed/part_007 lines 29–47)

```ts
function normalizeVersion(hedVersion: string): string {
    if (!hedVersion || typeof hedVersion !== 'string') {
        return hedVersion;
    }
    return hedVersion
        .split(',')
        .map(part => part.trim())
        .filter(part => part.length > 0)
        .join(',');
}
```
-/

/-- JS `String.prototype.split(',')` : splits on every comma; an empty
string yields `[""]`. -/
def splitOnComma : List Char → List (List Char)
  | [] => [[]]
  | c :: cs =>
    if c = ',' then [] :: splitOnComma cs
    else
      match splitOnComma cs with
      | [] => [[c]]
      | p :: ps => (c :: p) :: ps

/-- JS `Array.prototype.join(',')`. -/
def joinComma : List (List Char) → List Char
  | [] => []
  | [p] => p
  | p :: ps => p ++ ',' :: joinComma ps

/-- `normalizeVersion` from the source: split the version specifier on
commas, trim each part, drop the empty parts, and rejoin with commas; a
falsy (empty) input is returned unchanged. -/
def normalizeVersion (hedVersion : String) : String :=
  if hedVersion = "" then hedVersion
  else
    ⟨joinComma ((((splitOnComma hedVersion.data).map trimList).filter
        (fun p => !p.isEmpty)))⟩

/-! ## `removePlaceholders` (src/server/src/validation.ts lines 167–197)

The source applies, in order, the global regex replacements
`\s*,\s*\{[^}]+\}` → `""`, `\{[^}]+\}\s*,\s*` → `""`, `\{[^}]+\}` → `""`,
`,\s*,` → `","`, `\(\s*,` → `"("`, `,\s*\)` → `")"`, `\(\s*\)` → `""`,
then the anchored replacements `^\s*,\s*` → `""` and `\s*,\s*$` → `""`,
and finally `trim()`.  Each pattern is deterministic (no backtracking can
change the match), so each replacement is modelled by a left-to-right
scanner that attempts the pattern at each position and, on a match, emits
the replacement and resumes after the matched span. -/

/-- Skip a maximal run of whitespace (the greedy `\s*`). -/
def skipWs (l : List Char) : List Char := l.dropWhile isWs

/-- One global regex replacement pass: scan left to right, attempting the
pattern at each position; on a match emit the replacement and resume after
the matched text (replacements are not rescanned), otherwise keep the
character.  `attempt l` returns `(replacement, rest)` when the pattern
matches at the head of `l`; every pattern used below consumes at least one
character, so `fuel = l.length + 1` suffices. -/
def replacePass (attempt : List Char → Option (List Char × List Char)) :
    ℕ → List Char → List Char
  | 0, l => l
  | _ + 1, [] => []
  | fuel + 1, c :: cs =>
    match attempt (c :: cs) with
    | some (rep, rest) => rep ++ replacePass attempt fuel rest
    | none => c :: replacePass attempt fuel cs

/-- Run a global replacement pass over the whole list. -/
def gReplace (attempt : List Char → Option (List Char × List Char))
    (l : List Char) : List Char :=
  replacePass attempt (l.length + 1) l

/-- `\s*,\s*\{[^}]+\}` at the head of the list. -/
def matchCommaPlaceholder (l : List Char) : Option (List Char × List Char) :=
  match skipWs l with
  | ',' :: l2 =>
    match skipWs l2 with
    | '{' :: l4 =>
      let body := l4.takeWhile (fun c => c != '}')
      match l4.dropWhile (fun c => c != '}') with
      | '}' :: l6 => if body.isEmpty then none else some ([], l6)
      | _ => none
    | _ => none
  | _ => none

/-- `\{[^}]+\}\s*,\s*` at the head of the list. -/
def matchPlaceholderComma (l : List Char) : Option (List Char × List Char) :=
  match l with
  | '{' :: l1 =>
    let body := l1.takeWhile (fun c => c != '}')
    match l1.dropWhile (fun c => c != '}') with
    | '}' :: l2 =>
      if body.isEmpty then none
      else
        match skipWs l2 with
        | ',' :: l3 => some ([], skipWs l3)
        | _ => none
    | _ => none
  | _ => none

/-- `\{[^}]+\}` at the head of the list. -/
def matchPlaceholder (l : List Char) : Option (List Char × List Char) :=
  match l with
  | '{' :: l1 =>
    let body := l1.takeWhile (fun c => c != '}')
    match l1.dropWhile (fun c => c != '}') with
    | '}' :: l2 => if body.isEmpty then none else some ([], l2)
    | _ => none
  | _ => none

/-- `,\s*,` (replaced by `","`) at the head of the list. -/
def matchDoubleComma (l : List Char) : Option (List Char × List Char) :=
  match l with
  | ',' :: l1 =>
    match skipWs l1 with
    | ',' :: l2 => some ([','], l2)
    | _ => none
  | _ => none

/-- `\(\s*,` (replaced by `"("`) at the head of the list. -/
def matchOpenComma (l : List Char) : Option (List Char × List Char) :=
  match l with
  | '(' :: l1 =>
    match skipWs l1 with
    | ',' :: l2 => some (['('], l2)
    | _ => none
  | _ => none

/-- `,\s*\)` (replaced by `")"`) at the head of the list. -/
def matchCommaClose (l : List Char) : Option (List Char × List Char) :=
  match l with
  | ',' :: l1 =>
    match skipWs l1 with
    | ')' :: l2 => some ([')'], l2)
    | _ => none
  | _ => none

/-- `\(\s*\)` (removed) at the head of the list. -/
def matchEmptyGroup (l : List Char) : Option (List Char × List Char) :=
  match l with
  | '(' :: l1 =>
    match skipWs l1 with
    | ')' :: l2 => some ([], l2)
    | _ => none
  | _ => none

/-- The anchored replacement `^\s*,\s*` → `""` (applied at most once, at the
start of the string). -/
def stripLeadingComma (l : List Char) : List Char :=
  match skipWs l with
  | ',' :: l2 => skipWs l2
  | _ => l

/-- Does `\s*,\s*$` match here, i.e. whitespace, a comma and whitespace
reaching the end of the string? -/
def trailCommaHere (l : List Char) : Bool :=
  match skipWs l with
  | ',' :: l2 => (skipWs l2).isEmpty
  | _ => false

/-- The anchored replacement `\s*,\s*$` → `""`: remove the leftmost match
that extends to the end of the string. -/
def stripTrailingComma : List Char → List Char
  | [] => []
  | c :: cs =>
    if trailCommaHere (c :: cs) then []
    else c :: stripTrailingComma cs

/-- `removePlaceholders` from src/server/src/validation.ts: remove
`{column}` placeholders (together with one adjacent comma where present)
and clean up comma/parenthesis artifacts, then trim. -/
def removePlaceholders (hedString : String) : String :=
  let r1 := gReplace matchCommaPlaceholder hedString.data
  let r2 := gReplace matchPlaceholderComma r1
  let r3 := gReplace matchPlaceholder r2
  let r4 := gReplace matchDoubleComma r3
  let r5 := gReplace matchOpenComma r4
  let r6 := gReplace matchCommaClose r5
  let r7 := gReplace matchEmptyGroup r6
  let r8 := stripLeadingComma r7
  let r9 := stripTrailingComma r8
  ⟨trimList r9⟩

/-! ## `validateHedString` (src/server/src/validation.ts lines 202–242)

The external validator `parseHedString` and the issue converter
`convertIssue` (which operates on the validator's dynamically-typed issue
objects) are parameters of the model: `parse` returns either the pair
(syntax issues, semantic issues) or, when the validator throws, the thrown
error's text; `conv` converts one external issue.  The Boolean in the
result records whether the external validator was invoked. -/

/-- A validation issue as produced by the validation module
(src/server/src/types.ts). -/
structure ValidationIssue where
  hedCode : String
  internalCode : String
  level : String
  message : String
  bounds : Option (ℕ × ℕ)
deriving DecidableEq

/-- The synthetic issue built in `validateHedString`'s `catch` branch. -/
def mkInternalErrorIssue (msg : String) : ValidationIssue :=
  { hedCode := "INTERNAL_ERROR"
    internalCode := "internalError"
    level := "error"
    message := "Validation error: " ++ msg
    bounds := none }

/-- `validateHedString` from src/server/src/validation.ts: skip empty
strings, strip placeholders, skip placeholder-only strings, and otherwise
invoke the external validator, converting its issues — or, if it throws,
returning the single synthetic internal-error issue.  The function is
total: no exception propagates. -/
def validateHedString {ι : Type} (parse : String → Except String (List ι × List ι))
    (conv : ι → String → ValidationIssue) (hedString : String) :
    List ValidationIssue × Bool :=
  if jsTrim hedString = "" then ([], false)
  else
    let cleanedHed := removePlaceholders hedString
    if jsTrim cleanedHed = "" then ([], false)
    else
      match parse cleanedHed with
      | .ok (syntaxIssues, semanticIssues) =>
          ((syntaxIssues ++ semanticIssues).map (fun i => conv i hedString), true)
      | .error e => ([mkInternalErrorIssue e], true)




/-! ## `findTagInString` (src/server/src/validation.ts lines 381–415)

A case-insensitive scan of the original string: repeatedly find the next
occurrence of the lowercased tag in the lowercased string (`indexOf`) and
accept the first occurrence whose boundary characters qualify.  The
characters tested come from the original, unmodified string. -/

/-- The separator class `[,()]` used by `findTagInString`. -/
def isSepChar (c : Char) : Bool := c = ',' || c = '(' || c = ')'

/-- The scan of JS `String.prototype.indexOf(needle, start)`, with an
explicit step bound (the scan stops past the end of the string, so
`hay.length + 2` steps always suffice). -/
def indexOfAux (hay needle : List Char) : ℕ → ℕ → Option ℕ
  | 0, _ => none
  | fuel + 1, start =>
    if start > hay.length then none
    else if needle.isPrefixOf (hay.drop start) then some start
    else indexOfAux hay needle fuel (start + 1)

/-- JS `String.prototype.indexOf(needle, start)`: the first index `i ≥ start`
at which `needle` occurs, `none` if there is none. -/
def indexOfFrom (hay needle : List Char) (start : ℕ) : Option ℕ :=
  indexOfAux hay needle (hay.length + 2) start

/-- The boundary test of `findTagInString` at occurrence index `i`: the
preceding character (`','` when at the start) must be a separator or a
space, or the match must start the string; the following character (`','`
when past the end) must be a separator, a space or a slash, or the match
must reach the end. -/
def boundaryOk (hedData : List Char) (tagLen : ℕ) (i : ℕ) : Bool :=
  let beforeChar := if 0 < i then hedData.getD (i - 1) ',' else ','
  let afterChar := if i + tagLen < hedData.length then hedData.getD (i + tagLen) ',' else ','
  (isSepChar beforeChar || beforeChar = ' ' || i == 0) &&
  (isSepChar afterChar || afterChar = ' ' || afterChar = '/' ||
    decide (i + tagLen ≥ hedData.length))

/-- The `while (index !== -1)` loop of `findTagInString`: test the boundary
at the current occurrence; on failure move to the next occurrence.  `fuel`
bounds the iteration count (occurrence indices strictly increase and are
bounded by the string length, so `hay.length + 1` steps suffice). -/
def findTagLoop (hedData : List Char) (tagLen : ℕ) (lowerHed lowerTag : List Char) :
    ℕ → ℕ → Option (ℕ × ℕ)
  | 0, _ => none
  | fuel + 1, i =>
    if boundaryOk hedData tagLen i then some (i, i + tagLen)
    else
      match indexOfFrom lowerHed lowerTag (i + 1) with
      | some j => findTagLoop hedData tagLen lowerHed lowerTag fuel j
      | none => none

/-- `findTagInString` from src/server/src/validation.ts: the bounds of the
first boundary-respecting, case-insensitive occurrence of `tagName` in
`hedString`, or `none`. -/
def findTagInString (hedString tagName : String) : Option (ℕ × ℕ) :=
  let lowerHed := hedString.data.map Char.toLower
  let lowerTag := tagName.data.map Char.toLower
  match indexOfFrom lowerHed lowerTag 0 with
  | none => none
  | some i =>
    findTagLoop hedString.data tagName.data.length lowerHed lowerTag
      (hedString.data.length + 1) i

/-! ## `getTagAtOffset` (src/server/src/documentParser.ts lines 220–258) and
`analyzeCompletionContext` (src/server/src/completion.ts lines 247–303) -/

/-- The `while (start > 0 && !separators.test(...))` loop: walk left from
the offset to the previous separator. -/
def tagStartIdx (content : List Char) : ℕ → ℕ
  | 0 => 0
  | i + 1 => if isSepChar (content.getD i ' ') then i + 1 else tagStartIdx content i

/-- The `while (end < length && !separators.test(...))` loop, with an
explicit step bound. -/
def tagEndAux (content : List Char) : ℕ → ℕ → ℕ
  | 0, i => i
  | fuel + 1, i =>
    if i < content.length then
      if isSepChar (content.getD i ' ') then i else tagEndAux content fuel (i + 1)
    else i

/-- Walk right from the offset to the next separator (the loop runs at most
`content.length + 1` steps). -/
def tagEndIdx (content : List Char) (i : ℕ) : ℕ :=
  tagEndAux content (content.length + 1) i

/-- The `while (start < end && hedContent[start] === ' ')` loop, with an
explicit step bound; an out-of-range access is not a space. -/
def spaceStartAux (content : List Char) (e : ℕ) : ℕ → ℕ → ℕ
  | 0, s => s
  | fuel + 1, s =>
    if s < e ∧ content.getD s '\x00' = ' ' then spaceStartAux content e fuel (s + 1)
    else s

/-- Advance the start index over literal spaces (`hedContent[start] === ' '`;
at most `e - s` steps). -/
def spaceStart (content : List Char) (s e : ℕ) : ℕ :=
  spaceStartAux content e (e - s) s

/-- The `while (end > start && hedContent[end - 1] === ' ')` loop, with an
explicit step bound; an out-of-range access is not a space. -/
def spaceEndAux (content : List Char) (s : ℕ) : ℕ → ℕ → ℕ
  | 0, e => e
  | fuel + 1, e =>
    if s < e ∧ content.getD (e - 1) '\x00' = ' ' then spaceEndAux content s fuel (e - 1)
    else e

/-- Retreat the end index over literal spaces (`hedContent[end - 1] === ' '`;
at most `e - s` steps). -/
def spaceEnd (content : List Char) (s e : ℕ) : ℕ :=
  spaceEndAux content s (e - s) e

/-- The tag token found by `getTagAtOffset`. -/
structure TagAtOffset where
  tagText : List Char
  startIdx : ℕ
  endIdx : ℕ
deriving DecidableEq

/-- `getTagAtOffset` from src/server/src/documentParser.ts: expand from the
offset to the surrounding separators, trim spaces, and return the span, or
`none` when it is empty. -/
def getTagAtOffset (content : List Char) (offset : ℕ) : Option TagAtOffset :=
  let start0 := tagStartIdx content offset
  let end0 := tagEndIdx content offset
  let start := spaceStart content start0 end0
  let stop := spaceEnd content start end0
  if start = stop then none
  else some ⟨(content.drop start).take (stop - start), start, stop⟩

/-- Completion context kinds (the source's string union
`'top-level' | 'child' | 'partial' | 'value'`). -/
inductive CompletionType where
  | topLevel
  | child
  | partialTok
  | value
deriving DecidableEq

/-- The completion context computed by `analyzeCompletionContext`.
`prefixStr` models the source's `prefix` field. -/
structure CompletionContext where
  type : CompletionType
  parentTag : Option String := none
  prefixStr : Option String := none
  afterSeparator : Bool
deriving DecidableEq

/-- A character of the class `[A-Za-z0-9_-]` used by the source's tag-name
patterns. -/
def isNameChar (c : Char) : Bool :=
  ('a' ≤ c && c ≤ 'z') || ('A' ≤ c && c ≤ 'Z') || ('0' ≤ c && c ≤ '9') ||
    c = '_' || c = '-'

/-- The match `beforeCursor.match(/([A-Za-z0-9_-]+)\s*\/\s*$/)`: parse the
text before the cursor backwards as whitespace, a slash, whitespace and a
nonempty name-character run, returning the captured run. -/
def parentBeforeSlash (beforeCursor : List Char) : Option (List Char) :=
  match skipWs beforeCursor.reverse with
  | '/' :: r2 =>
    let tok := (skipWs r2).takeWhile isNameChar
    if tok.isEmpty then none else some tok.reverse
  | _ => none

/-- JS `String.prototype.lastIndexOf(c)` on a character list (`-1` when the
character does not occur). -/
def lastIndexOf (l : List Char) (c : Char) : Int :=
  match l.reverse.findIdx? (fun x => x == c) with
  | some j => (l.length : Int) - 1 - j
  | none => -1

/-- The token-at-cursor analysis that `analyzeCompletionContext` falls
through to when no significant character decides the context: a token
containing a slash at positive index is a child context split at the last
slash, any other token is a partial context, and no token at all is a
top-level context not marked as after a separator. -/
def tokenContext (content : List Char) (offset : ℕ) : CompletionContext :=
  match getTagAtOffset content offset with
  | some info =>
    let slashIndex := lastIndexOf info.tagText '/'
    if slashIndex > 0 then
      { type := .child
        parentTag := some ⟨info.tagText.take slashIndex.toNat⟩
        prefixStr := some ⟨info.tagText.drop (slashIndex.toNat + 1)⟩
        afterSeparator := false }
    else
      { type := .partialTok
        prefixStr := some ⟨info.tagText⟩
        afterSeparator := false }
  | none => { type := .topLevel, afterSeparator := false }

/-- `analyzeCompletionContext` from src/server/src/completion.ts: classify
the cursor position from the last significant character before it, falling
through to the token-at-cursor analysis. -/
def analyzeCompletionContext (content : List Char) (offset : ℕ) : CompletionContext :=
  let beforeCursor := content.take offset
  let lastChar := (trimR beforeCursor).getLast?
  if lastChar = some '/' then
    match parentBeforeSlash beforeCursor with
    | some tok =>
      { type := .child, parentTag := some ⟨tok⟩, afterSeparator := true }
    | none => tokenContext content offset
  else if lastChar = some ',' ∨ lastChar = some '(' then
    { type := .topLevel, afterSeparator := true }
  else tokenContext content offset

/-- The specification's "last non-space character before the cursor": the
last character of the text before the cursor that is not whitespace. -/
def lastNonSpaceBefore (content : List Char) (offset : ℕ) : Option Char :=
  (content.take offset).reverse.find? (fun c => !isWs c)

/-! ## Association-list model of JS `Map` (insertion-ordered, `set`
overwrites in place, `get` returns the value for the key) -/

/-- JS `Map.prototype.get`. -/
def lookupAssoc {α : Type} (xs : List (String × α)) (k : String) : Option α :=
  (xs.find? (fun p => p.1 == k)).map (fun p => p.2)

/-- JS `Map.prototype.set`: overwrite the value in place when the key is
present, append otherwise. -/
def assocSet {α : Type} (xs : List (String × α)) (k : String) (v : α) :
    List (String × α) :=
  if (xs.find? (fun p => p.1 == k)).isSome then
    xs.map (fun p => if p.1 == k then (k, v) else p)
  else xs ++ [(k, v)]

/-! ## `SchemaManager.getChildTags` (src/unnamed/part_007 lines 244–268)

The schema data supplied by the external `hed-validator` library is
modelled structurally: a `Schemas` object has an optional base schema and a
map of (prefix, schema) pairs; each schema has a tag table of (key, entry)
pairs; an entry carries the fields the manager reads (names, the parent
entry's name, the `inLibrary` value attribute, the other attributes copied
into `HedTag`).  Absent string-valued fields are modelled by `""`
(JS falsy). -/

structure SchemaEntry where
  name : String
  shortTagName : String
  longTagName : String
  longName : String
  /-- `entry.parent`: `none` models a null parent; `some n` a parent entry
  named `n`. -/
  parent : Option String
  description : String
  /-- `valueAttributeNames.get('inLibrary')`. -/
  inLibrary : Option String
  boolAttrs : List String
  suggestedTag : List String
  relatedTag : List String
  unitClass : List String
  defaultUnits : Option String
deriving DecidableEq

structure Schema where
  tags : List (String × SchemaEntry)
deriving DecidableEq

structure Schemas where
  baseSchema : Option Schema
  schemas : List (String × Schema)
deriving DecidableEq

structure HedTagAttributes where
  extensionAllowed : Bool
  takesValue : Bool
  unitClass : List String
  suggestedTag : List String
  relatedTag : List String
  requireChild : Bool
  unique : Bool
  defaultUnits : Option String
deriving DecidableEq

structure HedTag where
  shortForm : String
  longForm : String
  description : String
  parent : Option String
  children : List String
  attributes : HedTagAttributes
deriving DecidableEq

/-- `getAllSchemaObjects`: the base schema (with the empty prefix) followed
by every library schema from the schemas map that has a nonempty prefix and
is not the base schema object itself, with `":"` appended to its prefix. -/
def getAllSchemaObjects (schemas : Schemas) : List (Schema × String) :=
  (match schemas.baseSchema with
   | some base => [(base, "")]
   | none => []) ++
  schemas.schemas.filterMap (fun ps =>
    if ps.1 ≠ "" ∧ (∀ base, schemas.baseSchema = some base → ps.2 ≠ base) then
      some (ps.2, ps.1 ++ ":")
    else none)

/-- JS `s.replace(':', '')`: remove the first colon only. -/
def removeFirstColonL : List Char → List Char
  | [] => []
  | c :: cs => if c = ':' then cs else c :: removeFirstColonL cs

def removeFirstColon (s : String) : String := ⟨removeFirstColonL s.data⟩

/-- `isTagFromLibrary`: a tag belongs to a library iff its `inLibrary`
value attribute is present (and truthy) and equals the library's prefix
without the colon, exactly or case-insensitively. -/
def isTagFromLibrary (entry : SchemaEntry) (libPfx : String) : Bool :=
  if libPfx = "" then true
  else
    match entry.inLibrary with
    | some inLib =>
      if inLib ≠ "" then
        inLib == removeFirstColon libPfx ||
          jsToLower inLib == jsToLower (removeFirstColon libPfx)
      else false
    | none => false

/-- `schemaEntryToHedTag`: convert a schema entry to a `HedTag`, returning
`none` for a library lookup when the entry does not belong to that
library. -/
def schemaEntryToHedTag (entry : SchemaEntry) (pfx : String) : Option HedTag :=
  if pfx ≠ "" ∧ ¬ isTagFromLibrary entry pfx then none
  else
    some
      { shortForm := pfx ++ (if entry.shortTagName ≠ "" then entry.shortTagName
          else entry.name)
        longForm := pfx ++ (if entry.longTagName ≠ "" then entry.longTagName
          else if entry.longName ≠ "" then entry.longName else entry.name)
        description := entry.description
        parent := match entry.parent with
          | some n => if n = "" then none else some n
          | none => none
        children := []
        attributes :=
          { extensionAllowed := entry.boolAttrs.contains "extensionAllowed"
            takesValue := entry.boolAttrs.contains "takesValue"
            unitClass := entry.unitClass
            suggestedTag := entry.suggestedTag
            relatedTag := entry.relatedTag
            requireChild := entry.boolAttrs.contains "requireChild"
            unique := entry.boolAttrs.contains "unique"
            defaultUnits := entry.defaultUnits } }

/-- JS `s.split(':')[1]`: the text between the first and second colon. -/
def splitColonSecond (s : String) : String :=
  ⟨((s.data.dropWhile (fun c => c != ':')).drop 1).takeWhile (fun c => c != ':')⟩

/-- The parent name after stripping a library prefix, as computed by
`getChildTags` (`parentShortForm.includes(':') ? parentShortForm.split(':')[1]
: parentShortForm`). -/
def cleanParentName (parentShortForm : String) : String :=
  if parentShortForm.data.contains ':' then splitColonSecond parentShortForm
  else parentShortForm

/-- `SchemaManager.getChildTags` from src/unnamed/part_007: collect, across
the base schema and every library schema, the converted entries whose
parent's name matches the (prefix-stripped) requested parent
case-insensitively. -/
def getChildTags (schemas : Schemas) (parentShortForm : String) : List HedTag :=
  let cleanParent := cleanParentName parentShortForm
  (getAllSchemaObjects schemas).foldl
    (fun children sp =>
      children ++ sp.1.tags.filterMap (fun ke =>
        match ke.2.parent with
        | some pname =>
          if jsToLower pname == jsToLower cleanParent then
            schemaEntryToHedTag ke.2 sp.2
          else none
        | none => none))
    []

/-- The specification's reading of the same operation (spec §8 / data-model
invariant): the tags drawn from the base namespace and from every merged
library namespace — an entry belongs to a library namespace iff its
membership attribute matches that namespace's prefix — whose parent name
equals the prefix-stripped parent case-insensitively. -/
def childTagsSpec (schemas : Schemas) (p : String) : List HedTag :=
  let clean := cleanParentName p
  (getAllSchemaObjects schemas).foldl
    (fun acc sp =>
      acc ++ ((sp.1.tags.map (fun ke => ke.2)).filter (fun e =>
          isTagFromLibrary e sp.2 &&
          match e.parent with
          | some pname => jsToLower pname == jsToLower clean
          | none => false)).filterMap (fun e => schemaEntryToHedTag e sp.2))
    []

/-! ## `findDefinitionsInDocument` (src/unnamed/part_008 lines 530–570)

The pattern `/\(Definition\/([A-Za-z0-9_-]+)(\/\s*#)?,/g` is scanned over
each region's content; each match records the definition name and whether
the placeholder marker is present, then the matching close parenthesis is
found by depth counting, and the definition is stored in a `Map` keyed by
the lowercased name (`Map.set`: a later occurrence overwrites an earlier
one).  A document is modelled as the list of its regions' HED content
strings. -/

/-- One regex match of the definition pattern. -/
structure DefMatch where
  name : String
  hasPlaceholder : Bool
  startOffset : ℕ
deriving DecidableEq

/-- Attempt the definition pattern at the head of `l`.  Returns the name,
the placeholder flag, and the number of characters consumed by the match
(the regex resumes after the matched comma).  The pattern is deterministic:
the name run is maximal, and when a `/` follows the name the optional
group must match and be followed by the comma. -/
def matchDefAt (l : List Char) : Option (String × Bool × ℕ) :=
  if ("(Definition/".data).isPrefixOf l then
    let l1 := l.drop 12
    let nameRun := l1.takeWhile isNameChar
    if nameRun.isEmpty then none
    else
      match l1.drop nameRun.length with
      | '/' :: l3 =>
        let wsRun := l3.takeWhile isWs
        (match l3.drop wsRun.length with
         | '#' :: l5 =>
           match l5 with
           | ',' :: _ =>
             some (⟨nameRun⟩, true, 12 + nameRun.length + 1 + wsRun.length + 1 + 1)
           | _ => none
         | _ => none)
      | ',' :: _ => some (⟨nameRun⟩, false, 12 + nameRun.length + 1)
      | _ => none
  else none

/-- Global scan of the definition pattern (`defPattern.exec` loop): try the
pattern at every position, resuming after each match.  `fuel` bounds the
number of steps (`content.length + 1` suffices since every step advances
the position). -/
def scanDefs (content : List Char) : ℕ → ℕ → List DefMatch
  | 0, _ => []
  | fuel + 1, p =>
    if p ≥ content.length then []
    else
      match matchDefAt (content.drop p) with
      | some nhc =>
        ⟨nhc.1, nhc.2.1, p⟩ :: scanDefs content fuel (p + nhc.2.2)
      | none => scanDefs content fuel (p + 1)

/-- The depth-counting close-parenthesis search (`while (i < len && depth > 0)`). -/
def closeScan (content : List Char) (i depth : ℕ) : ℕ :=
  if i < content.length ∧ 0 < depth then
    let c := content.getD i ' '
    closeScan content (i + 1)
      (if c = '(' then depth + 1 else if c = ')' then depth - 1 else depth)
  else i
termination_by content.length - i
decreasing_by omega

/-- A definition found in a document (the source's `DefinitionLocation`;
the owning region is recorded by index). -/
structure DefinitionLocation where
  name : String
  hasPlaceholder : Bool
  content : List Char
  regionIdx : ℕ
  startOffset : ℕ
  endOffset : ℕ
deriving DecidableEq

/-- The `(lowercased name, location)` pairs produced while scanning one
region, in scan order. -/
def regionDefs (regionIdx : ℕ) (rc : List Char) : List (String × DefinitionLocation) :=
  (scanDefs rc (rc.length + 1) 0).map (fun m =>
    let close := closeScan rc (m.startOffset + 1) 1
    (jsToLower m.name,
      { name := m.name
        hasPlaceholder := m.hasPlaceholder
        content := (rc.drop m.startOffset).take (close - m.startOffset)
        regionIdx := regionIdx
        startOffset := m.startOffset
        endOffset := close }))

/-- All `definitions.set` calls performed over a document, in order. -/
def documentDefs (regions : List String) : List (String × DefinitionLocation) :=
  (regions.enum.map (fun ir => regionDefs ir.1 ir.2.data)).flatten

/-- `findDefinitionsInDocument` from src/unnamed/part_008: the `Map` built
by performing every `set` in scan order. -/
def findDefinitionsInDocument (regions : List String) :
    List (String × DefinitionLocation) :=
  (documentDefs regions).foldl (fun m kv => assocSet m kv.1 kv.2) []

/-! ## `EmbeddingsManager` (src/server/src/embeddings.ts)

Similarity scores (IEEE doubles in the source) are modelled as real
numbers.  The curated `KEYWORD_INDEX` constant is passed as the `kwIndex`
argument; the manager state is its two vector stores.  The single
`this.embed(query.toLowerCase())` call of the embedding path is modelled by
the `queryEmbedding : Option (List ℝ)` oracle argument (`none` models a
failed embedding), and `findSimilar` returns, alongside its matches, the
number of embedding-model calls it performed. -/

structure TagEmbedding where
  tag : String
  longForm : String
  pfx : String
  vector : List ℝ

structure KeywordEmbedding where
  keyword : String
  targets : List String
  vector : List ℝ

structure SemanticMatch where
  tag : String
  longForm : String
  pfx : String
  similarity : ℝ

structure EmbeddingsManager where
  tagEmbeddings : List (String × TagEmbedding)
  keywordEmbeddings : List KeywordEmbedding

noncomputable section

/-- `cosineSimilarity`: a plain dot product (the stored vectors are already
normalized); mismatched lengths give 0. -/
def cosineSimilarity (a b : List ℝ) : ℝ :=
  if a.length ≠ b.length then 0
  else (a.zip b).foldl (fun acc p => acc + p.1 * p.2) 0

/-- `EmbeddingsManager.findByKeyword` (lines 671–695): look the lowercased,
trimmed query up in the curated keyword index and return, for each target
tag that has a stored embedding entry, a match at fixed similarity 0.95, in
the keyword's listed order.  Target tags without a stored entry are
omitted. -/
def findByKeyword (kwIndex : List (String × List String)) (m : EmbeddingsManager)
    (query : String) : List SemanticMatch :=
  let normalizedQuery := jsTrim (jsToLower query)
  match lookupAssoc kwIndex normalizedQuery with
  | none => []
  | some matchingTags =>
    matchingTags.filterMap (fun tagName =>
      (lookupAssoc m.tagEmbeddings (jsToLower tagName)).map (fun entry =>
        { tag := entry.tag, longForm := entry.longForm, pfx := entry.pfx,
          similarity := (0.95 : ℝ) }))

/-- The evidence-combination score of `findSimilar` (lines 804–807):
`maxSimilarity × (1 + ln(votes + 1) × 0.2)`, boosted by 1.5 when the tag
also cleared the direct threshold, plus `0.3 ×` the direct similarity. -/
def combinedScoreFormula (votes : ℕ) (maxSim directSim : ℝ) : ℝ :=
  maxSim * (1 + Real.log ((votes : ℝ) + 1) * 0.2) *
    (if 0 < directSim then (1.5 : ℝ) else 1.0) + directSim * 0.3

/-- The per-target vote record of the keyword-vote map. -/
structure VoteInfo where
  votes : ℕ
  maxSimilarity : ℝ

/-- One keyword vote for a target tag: increment the count and keep the
maximum similarity, or create a fresh record. -/
def addVote (tv : List (String × VoteInfo)) (target : String) (sim : ℝ) :
    List (String × VoteInfo) :=
  match lookupAssoc tv target with
  | some ex => assocSet tv target ⟨ex.votes + 1, max ex.maxSimilarity sim⟩
  | none => assocSet tv target ⟨1, sim⟩

/-- A row of the `combinedScores` map. -/
structure CombinedEntry where
  entry : TagEmbedding
  keywordVotes : ℕ
  keywordSimilarity : ℝ
  directSimilarity : ℝ
  combinedScore : ℝ

/-- The embedding path of `findSimilar` (lines 726–837), given the query
vector: keyword vote collection (threshold 0.6, top 10), direct tag search
(threshold 0.5), evidence combination, descending sort, `topK` cut, and the
final cap of every reported similarity at 0.94. -/
def embeddingSearch (m : EmbeddingsManager) (queryEmbedding : List ℝ)
    (topK : ℕ) : List SemanticMatch :=
  let keywordSimilarities := m.keywordEmbeddings.filterMap (fun kw =>
      let sim := cosineSimilarity queryEmbedding kw.vector
      if sim ≥ 0.6 then some (kw, sim) else none)
  let topKeywords :=
    (keywordSimilarities.mergeSort (fun a b => decide (b.2 ≤ a.2))).take 10
  let tagVotes := topKeywords.foldl (fun acc ks =>
      ks.1.targets.foldl (fun acc2 t => addVote acc2 t ks.2) acc) []
  let directMatches := m.tagEmbeddings.foldl (fun acc ke =>
      let sim := cosineSimilarity queryEmbedding ke.2.vector
      if sim ≥ 0.5 then assocSet acc ke.2.tag (ke.2, sim) else acc) []
  let combined1 : List (String × CombinedEntry) := tagVotes.foldl (fun acc tv =>
      match lookupAssoc m.tagEmbeddings (jsToLower tv.1) with
      | some entry =>
        let directSim := ((lookupAssoc directMatches tv.1).map (fun d => d.2)).getD 0
        assocSet acc tv.1
          ⟨entry, tv.2.votes, tv.2.maxSimilarity, directSim,
            combinedScoreFormula tv.2.votes tv.2.maxSimilarity directSim⟩
      | none => acc) []
  let combined2 := directMatches.foldl (fun acc dm =>
      if (lookupAssoc acc dm.1).isSome then acc
      else acc ++ [(dm.1, ⟨dm.2.1, 0, 0, dm.2.2, dm.2.2⟩)]) combined1
  let sortedResults :=
    (combined2.mergeSort (fun a b => decide (b.2.combinedScore ≤ a.2.combinedScore))).take topK
  sortedResults.map (fun ce =>
    { tag := ce.2.entry.tag, longForm := ce.2.entry.longForm,
      pfx := ce.2.entry.pfx,
      similarity := min ce.2.combinedScore 0.94 })

/-- `EmbeddingsManager.findSimilar` (lines 710–837): empty vector store →
no results; otherwise the deterministic keyword fast path (no model call);
otherwise the embedding path after one `embed` call (which may fail).  The
second component counts the embedding-model calls performed. -/
def findSimilar (kwIndex : List (String × List String)) (m : EmbeddingsManager)
    (queryEmbedding : Option (List ℝ)) (query : String) (topK : ℕ) :
    List SemanticMatch × ℕ :=
  if m.tagEmbeddings.isEmpty then ([], 0)
  else
    let exactKeywordMatches := findByKeyword kwIndex m query
    if 0 < exactKeywordMatches.length then (exactKeywordMatches.take topK, 0)
    else
      match queryEmbedding with
      | none => ([], 1)
      | some qv => (embeddingSearch m qv topK, 1)

end


/-! # Theorems

Helper lemmas first, then the claim theorems with their witnesses and
counterexamples. -/

theorem head?_trimL_not_ws (l : List Char) :
    ∀ c, (trimL l).head? = some c → isWs c = false := by
  induction l with
  | nil => simp [trimL]
  | cons a as ih =>
    intro c hc
    by_cases h : isWs a
    · exact ih c (by simpa [trimL, h] using hc)
    · simp only [trimL, List.dropWhile_cons] at hc
      simp [h] at hc
      simpa [← hc] using h

theorem trimL_eq_of_head?_not_ws (l : List Char)
    (h : ∀ c, l.head? = some c → isWs c = false) : trimL l = l := by
  cases hl : l with
  | nil => simp [trimL]
  | cons a as =>
    have ha : isWs a = false := h a (by rw [hl]; rfl)
    simp [trimL, List.dropWhile_cons, ha]

theorem trimR_eq_of_getLast?_not_ws (l : List Char)
    (h : ∀ c, l.getLast? = some c → isWs c = false) : trimR l = l := by
  have hrev : trimL l.reverse = l.reverse := by
    apply trimL_eq_of_head?_not_ws
    intro c hc
    exact h c (by rwa [← List.head?_reverse])
  simp [trimR, hrev]

theorem getLast?_trimR_not_ws (l : List Char) :
    ∀ c, (trimR l).getLast? = some c → isWs c = false := by
  intro c hc
  rw [trimR, List.getLast?_reverse] at hc
  exact head?_trimL_not_ws _ c hc

theorem trimR_prefix (l : List Char) : trimR l <+: l := by
  rw [trimR]
  have h : trimL l.reverse <:+ l.reverse := List.dropWhile_suffix isWs
  obtain ⟨t, ht⟩ := h
  exact ⟨t.reverse, by rw [← List.reverse_append, ht, List.reverse_reverse]⟩

theorem head?_trimR_of_ne_nil (l : List Char) (h : trimR l ≠ []) :
    (trimR l).head? = l.head? := by
  obtain ⟨t, ht⟩ := trimR_prefix l
  cases hr : trimR l with
  | nil => exact absurd hr h
  | cons a as =>
    have hl : l.head? = some a := by rw [← ht, hr]; rfl
    rw [hl]; rfl

theorem head?_trimList_not_ws (l : List Char) :
    ∀ c, (trimList l).head? = some c → isWs c = false := by
  intro c hc
  by_cases hne : trimR (trimL l) = []
  · rw [trimList, hne] at hc; cases hc
  · rw [trimList, head?_trimR_of_ne_nil _ hne] at hc
    exact head?_trimL_not_ws l c hc

/-- `trim` is idempotent. -/
theorem trimList_idem (l : List Char) : trimList (trimList l) = trimList l := by
  have h1 : trimL (trimList l) = trimList l :=
    trimL_eq_of_head?_not_ws _ (head?_trimList_not_ws l)
  rw [trimList, h1]
  exact trimR_eq_of_getLast?_not_ws _ (getLast?_trimR_not_ws (trimL l))

theorem mem_trimL (l : List Char) {x : Char} (h : x ∈ trimL l) : x ∈ l :=
  (List.dropWhile_sublist isWs (l := l)).mem h

theorem mem_trimR (l : List Char) {x : Char} (h : x ∈ trimR l) : x ∈ l := by
  rw [trimR, List.mem_reverse] at h
  exact List.mem_reverse.mp (mem_trimL l.reverse h)

theorem mem_trimList (l : List Char) {x : Char} (h : x ∈ trimList l) : x ∈ l :=
  mem_trimL l (mem_trimR (trimL l) h)

theorem splitOnComma_ne_nil (l : List Char) : splitOnComma l ≠ [] := by
  cases l with
  | nil => simp [splitOnComma]
  | cons c cs =>
    by_cases h : c = ','
    · simp [splitOnComma, h]
    · simp only [splitOnComma, if_neg h]
      cases splitOnComma cs <;> simp

theorem not_comma_mem_splitOnComma (l : List Char) :
    ∀ p ∈ splitOnComma l, ',' ∉ p := by
  induction l with
  | nil => simp [splitOnComma]
  | cons c cs ih =>
    intro p hp
    by_cases h : c = ','
    · simp only [splitOnComma, if_pos h, List.mem_cons] at hp
      rcases hp with hp | hp
      · simp [hp]
      · exact ih p hp
    · simp only [splitOnComma, if_neg h] at hp
      cases hsp : splitOnComma cs with
      | nil => exact absurd hsp (splitOnComma_ne_nil cs)
      | cons q qs =>
        rw [hsp] at hp
        simp only [List.mem_cons] at hp
        rcases hp with hp | hp
        · subst hp
          intro hm
          rcases List.mem_cons.mp hm with hm | hm
          · exact h hm.symm
          · exact ih q (by rw [hsp]; exact List.mem_cons_self q qs) hm
        · exact ih p (by rw [hsp]; exact List.mem_cons_of_mem q hp)

theorem splitOnComma_of_no_comma (p : List Char) (h : ',' ∉ p) :
    splitOnComma p = [p] := by
  induction p with
  | nil => rfl
  | cons c cs ih =>
    have hc : c ≠ ',' := fun hc => h (by simp [hc])
    have hcs : ',' ∉ cs := fun hm => h (List.mem_cons_of_mem c hm)
    simp [splitOnComma, hc, ih hcs]

theorem splitOnComma_append_comma (p r : List Char) (h : ',' ∉ p) :
    splitOnComma (p ++ ',' :: r) = p :: splitOnComma r := by
  induction p with
  | nil => simp [splitOnComma]
  | cons c cs ih =>
    have hc : c ≠ ',' := fun hc => h (by simp [hc])
    have hcs : ',' ∉ cs := fun hm => h (List.mem_cons_of_mem c hm)
    simp [splitOnComma, hc, ih hcs]

theorem splitOnComma_joinComma (ps : List (List Char)) (hne : ps ≠ [])
    (hnc : ∀ p ∈ ps, ',' ∉ p) : splitOnComma (joinComma ps) = ps := by
  induction ps with
  | nil => exact absurd rfl hne
  | cons p ps ih =>
    cases ps with
    | nil =>
      simpa [joinComma] using splitOnComma_of_no_comma p (hnc p (by simp))
    | cons q qs =>
      have h1 : joinComma (p :: q :: qs) = p ++ ',' :: joinComma (q :: qs) := rfl
      rw [h1, splitOnComma_append_comma p _ (hnc p (by simp))]
      rw [ih (by simp) (fun x hx => hnc x (List.mem_cons_of_mem p hx))]

theorem normalizeVersion_parts_no_comma (s : String) :
    ∀ p ∈ ((splitOnComma s.data).map trimList).filter (fun p => !p.isEmpty),
      ',' ∉ p := by
  intro p hp hmem
  have hp' := List.mem_filter.mp hp
  obtain ⟨q, hq, rfl⟩ := List.mem_map.mp hp'.1
  exact not_comma_mem_splitOnComma s.data q hq (mem_trimList q hmem)

/-- Claim C8: version-spec normalization is idempotent: splitting on commas,
trimming each part, dropping the empty parts and rejoining with commas is a
stable operation: `normalizeVersion (normalizeVersion s) = normalizeVersion s`
for every string `s`. -/
theorem normalizeVersion_idem (s : String) :
    normalizeVersion (normalizeVersion s) = normalizeVersion s := by
  by_cases hs : s = ""
  · simp [normalizeVersion, hs]
  · have hstep : normalizeVersion s =
        ⟨joinComma (((splitOnComma s.data).map trimList).filter
          (fun p => !p.isEmpty))⟩ := by
      rw [normalizeVersion, if_neg hs]
    set qs := ((splitOnComma s.data).map trimList).filter (fun p => !p.isEmpty)
      with hqs
    by_cases hr : (⟨joinComma qs⟩ : String) = ""
    · rw [hstep, hr]
      simp [normalizeVersion]
    · rw [hstep]
      have hqs_ne : qs ≠ [] := by
        intro hnil
        exact hr (by rw [hnil]; rfl)
      have hsplit : splitOnComma (joinComma qs) = qs :=
        splitOnComma_joinComma qs hqs_ne (normalizeVersion_parts_no_comma s)
      have hmap : qs.map trimList = qs := by
        have : ∀ p ∈ qs, trimList p = p := by
          intro p hp
          obtain ⟨q, _, rfl⟩ := List.mem_map.mp (List.mem_filter.mp hp).1
          exact trimList_idem q
        calc qs.map trimList = qs.map id := List.map_congr_left this
          _ = qs := List.map_id qs
      have hfilter : qs.filter (fun p => !p.isEmpty) = qs := by
        apply List.filter_eq_self.mpr
        intro p hp
        exact (List.mem_filter.mp hp).2
      rw [normalizeVersion, if_neg hr]
      show (⟨joinComma (((splitOnComma (joinComma qs)).map trimList).filter
          (fun p => !p.isEmpty))⟩ : String) = _
      rw [hsplit, hmap, hfilter]

/-! ### C1 — placeholder removal -/

/-- Claim C1, counterexample: the cleanup passes of `removePlaceholders`
are single-pass, so an input with a stacked artifact keeps a doubled comma:
`removePlaceholders "a,,,b" = "a,,b"`, and `",,"` is still an infix of the
result.  This refutes the claim that for every input string the cleaned
result contains no doubled comma (likewise `"(({col}))"` keeps an empty
group and `",,,x"` keeps a leading comma). -/
theorem removePlaceholders_residual_artifacts :
    removePlaceholders "a,,,b" = "a,,b" ∧
    [',', ','] <:+: (removePlaceholders "a,,,b").data ∧
    removePlaceholders "(({col}))" = "()" ∧
    removePlaceholders ",,,x" = ",x" := by
  refine ⟨by decide, ?_, by decide, by decide⟩
  show [',', ','] <:+: (removePlaceholders "a,,,b").data
  decide

/-- Claim C1, amended: `removePlaceholders "Tag-a, {col}, Tag-b" =
"Tag-a, Tag-b"` and `removePlaceholders "{col}" = ""`; a placeholder inside
a group is removed together with one adjacent comma (`"(a, {col})" →
"(a)"`, the implementation consuming a preceding comma in preference to a
following one); and whenever the cleaned string is empty after trimming,
`validateHedString` returns no issues without invoking the external
validator.  (The original claim's universal no-artifact guarantee is
dropped: the cleanup passes are single-pass, see the counterexample.) -/
theorem removePlaceholders_examples_and_skip :
    removePlaceholders "Tag-a, {col}, Tag-b" = "Tag-a, Tag-b" ∧
    removePlaceholders "{col}" = "" ∧
    removePlaceholders "(a, {col})" = "(a)" ∧
    ∀ (ι : Type) (parse : String → Except String (List ι × List ι))
      (conv : ι → String → ValidationIssue) (s : String),
      jsTrim (removePlaceholders s) = "" →
      validateHedString parse conv s = ([], false) := by
  refine ⟨by decide, by decide, by decide, ?_⟩
  intro ι parse conv s hclean
  rw [validateHedString]
  by_cases hs : jsTrim s = ""
  · rw [if_pos hs]
  · rw [if_neg hs]
    simp [hclean]

/-- Witness for the amended C1 theorem at the concrete input `"{col}"`. -/
theorem removePlaceholders_examples_and_skip_witness :
    validateHedString (ι := Unit) (fun _ => .ok ([], []))
      (fun _ _ => mkInternalErrorIssue "unused") "{col}" = ([], false) :=
  removePlaceholders_examples_and_skip.2.2.2 Unit
    (fun _ => .ok ([], [])) (fun _ _ => mkInternalErrorIssue "unused")
    "{col}" (by decide)

/-! ### C9 — the external validator throwing is caught -/

/-- Claim C9: if the external validator fails (throws) while validating a
non-empty cleaned string, `validateHedString` does not propagate the
failure: it returns exactly one synthetic issue whose code is
`INTERNAL_ERROR`, whose internal code is `internalError`, whose level is
`error`, and whose message embeds the thrown error's text.  (In the model
`validateHedString` is a total function, which is the formal counterpart of
"never raises".) -/
theorem validateHedString_catches_validator_error (ι : Type)
    (parse : String → Except String (List ι × List ι))
    (conv : ι → String → ValidationIssue) (s msg : String)
    (hs : jsTrim s ≠ "")
    (hclean : jsTrim (removePlaceholders s) ≠ "")
    (herr : parse (removePlaceholders s) = .error msg) :
    validateHedString parse conv s =
      ([{ hedCode := "INTERNAL_ERROR", internalCode := "internalError",
          level := "error", message := "Validation error: " ++ msg,
          bounds := none }], true) := by
  rw [validateHedString, if_neg hs]
  simp only [if_neg hclean, herr]
  rfl

/-- Witness for C9 at a concrete input: a validator that always fails turns
into the single synthetic internal-error issue. -/
theorem validateHedString_catches_validator_error_witness :
    validateHedString (ι := Unit) (fun _ => .error "boom")
      (fun _ _ => mkInternalErrorIssue "unused") "Tag" =
      ([{ hedCode := "INTERNAL_ERROR", internalCode := "internalError",
          level := "error", message := "Validation error: boom",
          bounds := none }], true) :=
  validateHedString_catches_validator_error Unit (fun _ => .error "boom")
    (fun _ _ => mkInternalErrorIssue "unused") "Tag" "boom"
    (by decide) (by decide) rfl

/-! ### C3 — evidence combination is a monotonic boost -/

/-- Claim C3: in `findSimilar`'s evidence combination, a tag with at least
one keyword vote (maximum keyword similarity at least the 0.6 threshold)
that also cleared the direct-match threshold (`directSim > 0`) scores at
least as high as it would from the direct match alone, assuming all
similarities lie in `[0, 1]`. -/
theorem combinedScore_monotonic_boost (votes : ℕ) (maxSim directSim : ℝ)
    (hv : 1 ≤ votes) (hlo : 0.6 ≤ maxSim) (hhi : maxSim ≤ 1)
    (hdpos : 0 < directSim) (hdle : directSim ≤ 1) :
    directSim ≤ combinedScoreFormula votes maxSim directSim := by
  have hlog : 0 ≤ Real.log ((votes : ℝ) + 1) := by
    apply Real.log_nonneg
    have : (0 : ℝ) ≤ (votes : ℝ) := Nat.cast_nonneg votes
    linarith
  rw [combinedScoreFormula, if_pos hdpos]
  nlinarith [mul_nonneg (by linarith : (0 : ℝ) ≤ maxSim) hlog]

/-- Witness for C3 at one vote, keyword similarity 0.6 and direct
similarity 1. -/
theorem combinedScore_monotonic_boost_witness :
    (1 : ℝ) ≤ combinedScoreFormula 1 0.6 1 :=
  combinedScore_monotonic_boost 1 0.6 1 le_rfl (by norm_num) (by norm_num)
    (by norm_num) le_rfl

/-! ### Helper lemmas on `filterMap` -/

theorem filterMap_length_of_isSome {α β : Type} (f : α → Option β)
    (l : List α) (hall : ∀ x ∈ l, (f x).isSome = true) :
    (l.filterMap f).length = l.length := by
  induction l with
  | nil => rfl
  | cons a as ih =>
    have ha := hall a (List.mem_cons_self a as)
    cases hfa : f a with
    | none => rw [hfa] at ha; cases ha
    | some b =>
      rw [List.filterMap_cons, hfa]
      simp only [List.length_cons]
      rw [ih (fun x hx => hall x (List.mem_cons_of_mem a hx))]

theorem filterMap_map_length {α β γ : Type} (g : α → Option β) (h : β → γ)
    (l : List α) :
    (l.filterMap (fun t => (g t).map h)).length =
      (l.filter (fun t => (g t).isSome)).length := by
  induction l with
  | nil => rfl
  | cons a as ih =>
    cases hga : g a with
    | none => simp [List.filterMap_cons, List.filter_cons, hga, ih]
    | some b => simp [List.filterMap_cons, List.filter_cons, hga, ih]

/-! ### C2 — deterministic keyword fast path vs. embedding path -/

/-- Claim C2, counterexample: with an empty tag-embedding store,
`findSimilar` returns no results even though the lowercased, trimmed query
`"marmoset"` is a key of the keyword index mapping to
`["Animal", "Animal-agent"]` — so the original claim ("for every query
whose lowercased, trimmed form is a key of the index, `findSimilar`
returns that keyword's target tags at similarity 0.95") fails. -/
theorem findSimilar_empty_store_ignores_keyword :
    findSimilar [("marmoset", ["Animal", "Animal-agent"])]
      ⟨[], []⟩ none "marmoset" 10 = ([], 0) ∧
    lookupAssoc [("marmoset", ["Animal", "Animal-agent"])]
      (jsTrim (jsToLower "marmoset")) = some ["Animal", "Animal-agent"] :=
  ⟨rfl, rfl⟩

/-- Claim C2, amended: when the tag-embedding store is non-empty, the
lowercased, trimmed query is a key of the curated keyword index with a
nonempty target list, every target tag has a stored embedding entry, and
the target list fits in `topK`, then `findSimilar` performs zero calls to
the embedding model and returns exactly the keyword's target tags, in the
keyword's listed order, each with similarity exactly 0.95; and every result
of the embedding path has similarity at most 0.94, strictly below 0.95, so
deterministic and inferred results never tie. -/
theorem findSimilar_keyword_fast_path (kwIndex : List (String × List String))
    (m : EmbeddingsManager) (emb : Option (List ℝ)) (query : String)
    (ts : List String) (topK : ℕ)
    (hne : m.tagEmbeddings.isEmpty = false)
    (hkey : lookupAssoc kwIndex (jsTrim (jsToLower query)) = some ts)
    (hts : ts ≠ [])
    (hstored : ∀ t ∈ ts, (lookupAssoc m.tagEmbeddings (jsToLower t)).isSome = true)
    (hlen : ts.length ≤ topK) :
    (findSimilar kwIndex m emb query topK).2 = 0 ∧
    (findSimilar kwIndex m emb query topK).1 =
      ts.filterMap (fun t => (lookupAssoc m.tagEmbeddings (jsToLower t)).map
        (fun e => ⟨e.tag, e.longForm, e.pfx, (0.95 : ℝ)⟩)) ∧
    (findSimilar kwIndex m emb query topK).1.length = ts.length ∧
    (∀ r ∈ (findSimilar kwIndex m emb query topK).1, r.similarity = 0.95) ∧
    (∀ (qv : List ℝ) r, r ∈ embeddingSearch m qv topK → r.similarity ≤ 0.94) ∧
    (0.94 : ℝ) < 0.95 := by
  have hfbk : findByKeyword kwIndex m query =
      ts.filterMap (fun t => (lookupAssoc m.tagEmbeddings (jsToLower t)).map
        (fun e => ⟨e.tag, e.longForm, e.pfx, (0.95 : ℝ)⟩)) := by
    rw [findByKeyword, hkey]
  have hlen' : (findByKeyword kwIndex m query).length = ts.length := by
    rw [hfbk]
    apply filterMap_length_of_isSome
    intro t ht
    have := hstored t ht
    cases hl : lookupAssoc m.tagEmbeddings (jsToLower t) with
    | none => rw [hl] at this; cases this
    | some e => simp
  have hpos : 0 < (findByKeyword kwIndex m query).length := by
    rw [hlen']
    exact List.length_pos.mpr hts
  have hres : findSimilar kwIndex m emb query topK =
      ((findByKeyword kwIndex m query).take topK, 0) := by
    rw [findSimilar.eq_def, hne]
    simp [hpos]
  have htake : (findByKeyword kwIndex m query).take topK =
      findByKeyword kwIndex m query :=
    List.take_of_length_le (by rw [hlen']; exact hlen)
  have hcap : ∀ (qv : List ℝ) r, r ∈ embeddingSearch m qv topK →
      r.similarity ≤ 0.94 := by
    intro qv r hr
    simp only [embeddingSearch, List.mem_map] at hr
    obtain ⟨ce, _, rfl⟩ := hr
    exact min_le_right _ _
  refine ⟨by rw [hres], by rw [hres, htake, hfbk], ?_, ?_, hcap, by norm_num⟩
  · rw [hres]
    simpa [htake] using hlen'
  · intro r hr
    rw [hres] at hr
    have hr' : r ∈ findByKeyword kwIndex m query := by
      rw [← htake]
      exact hr
    rw [hfbk] at hr'
    obtain ⟨t, _, hf⟩ := List.mem_filterMap.mp hr'
    cases hl : lookupAssoc m.tagEmbeddings (jsToLower t) with
    | none => rw [hl] at hf; cases hf
    | some e =>
      rw [hl] at hf
      have hre := (Option.some.inj hf).symm
      rw [hre]

/-- Witness for the amended C2 theorem: a two-entry store and the keyword
`"marmoset"` give zero model calls. -/
theorem findSimilar_keyword_fast_path_witness :
    (findSimilar [("marmoset", ["Animal", "Animal-agent"])]
      ⟨[("animal", ⟨"Animal", "Item/Animal", "", []⟩),
        ("animal-agent", ⟨"Animal-agent", "Agent/Animal-agent", "", []⟩)], []⟩
      none "marmoset" 10).2 = 0 :=
  (findSimilar_keyword_fast_path [("marmoset", ["Animal", "Animal-agent"])]
    ⟨[("animal", ⟨"Animal", "Item/Animal", "", []⟩),
      ("animal-agent", ⟨"Animal-agent", "Agent/Animal-agent", "", []⟩)], []⟩
    none "marmoset" ["Animal", "Animal-agent"] 10
    rfl rfl (by decide) (by decide) (by decide)).1

/-! ### C10 — the fast path is gated on the vector store -/

/-- Claim C10: `findByKeyword` returns only target tags present in the
loaded tag-embedding store (a curated target with no stored entry is
silently omitted — the result length is the number of stored targets), and
`findSimilar` returns the empty result with zero model calls whenever the
store is empty, even when the query matches a curated keyword. -/
theorem findByKeyword_gated_on_store :
    (∀ (kwIndex : List (String × List String)) (m : EmbeddingsManager)
       (query : String) (r : SemanticMatch), r ∈ findByKeyword kwIndex m query →
       ∃ t entry, lookupAssoc m.tagEmbeddings (jsToLower t) = some entry ∧
         r = ⟨entry.tag, entry.longForm, entry.pfx, (0.95 : ℝ)⟩) ∧
    (∀ (kwIndex : List (String × List String)) (m : EmbeddingsManager)
       (query : String) (ts : List String),
       lookupAssoc kwIndex (jsTrim (jsToLower query)) = some ts →
       (findByKeyword kwIndex m query).length =
         (ts.filter (fun t =>
           (lookupAssoc m.tagEmbeddings (jsToLower t)).isSome)).length) ∧
    (∀ (kwIndex : List (String × List String)) (m : EmbeddingsManager)
       (emb : Option (List ℝ)) (query : String) (topK : ℕ),
       m.tagEmbeddings = [] →
       findSimilar kwIndex m emb query topK = ([], 0)) := by
  refine ⟨?_, ?_, ?_⟩
  · intro kwIndex m query r hr
    rw [findByKeyword] at hr
    cases hkey : lookupAssoc kwIndex (jsTrim (jsToLower query)) with
    | none => rw [hkey] at hr; cases hr
    | some ts =>
      rw [hkey] at hr
      obtain ⟨t, _, hf⟩ := List.mem_filterMap.mp hr
      cases hl : lookupAssoc m.tagEmbeddings (jsToLower t) with
      | none => rw [hl] at hf; cases hf
      | some e =>
        rw [hl] at hf
        exact ⟨t, e, hl, (Option.some.inj hf).symm⟩
  · intro kwIndex m query ts hkey
    rw [findByKeyword, hkey]
    exact filterMap_map_length _ _ ts
  · intro kwIndex m emb query topK hm
    rw [findSimilar.eq_def, hm]
    rfl

/-- Witness for C10 at a concrete empty store and matching keyword. -/
theorem findByKeyword_gated_on_store_witness :
    findSimilar [("monkey", ["Animal", "Animal-agent"])] ⟨[], []⟩ none
      "monkey" 5 = ([], 0) :=
  findByKeyword_gated_on_store.2.2 [("monkey", ["Animal", "Animal-agent"])]
    ⟨[], []⟩ none "monkey" 5 rfl

/-! ### Helper lemmas on the association-list `Map` model -/

theorem lookupAssoc_cons {α : Type} (p : String × α) (ps : List (String × α))
    (k : String) :
    lookupAssoc (p :: ps) k = if p.1 = k then some p.2 else lookupAssoc ps k := by
  rw [lookupAssoc, List.find?_cons]
  by_cases h : p.1 = k
  · simp [h, lookupAssoc]
  · have hb : (p.1 == k) = false := by simpa using h
    simp [hb, h, lookupAssoc]

theorem find?_eq_none_cons {α : Type} {p : String × α} {ps : List (String × α)}
    {k : String} (h : (p :: ps).find? (fun q => q.1 == k) = none) :
    p.1 ≠ k ∧ ps.find? (fun q => q.1 == k) = none := by
  rw [List.find?_cons] at h
  cases hb : (p.1 == k) with
  | true => rw [hb] at h; cases h
  | false =>
    rw [hb] at h
    refine ⟨fun he => ?_, h⟩
    rw [beq_iff_eq.mpr he] at hb
    cases hb

theorem lookupAssoc_map_overwrite {α : Type} (xs : List (String × α))
    (k k' : String) (v : α) :
    lookupAssoc (xs.map (fun p => if p.1 == k then (k, v) else p)) k' =
      if k' = k then (xs.find? (fun p => p.1 == k)).map (fun _ => v)
      else lookupAssoc xs k' := by
  induction xs with
  | nil => by_cases h : k' = k <;> simp [lookupAssoc, h]
  | cons p ps ih =>
    rw [List.map_cons]
    by_cases hp : p.1 = k
    · rw [show (if p.1 == k then ((k, v) : String × α) else p) = (k, v) by
        simp [hp]]
      rw [lookupAssoc_cons, List.find?_cons]
      rw [show (p.1 == k) = true from beq_iff_eq.mpr hp]
      by_cases hk : k' = k
      · have : ((k, v) : String × α).1 = k' := hk.symm
        rw [if_pos this, if_pos hk]
        rfl
      · have : ((k, v) : String × α).1 ≠ k' := fun h => hk h.symm
        rw [if_neg this, if_neg hk, ih, if_neg hk, lookupAssoc_cons,
          if_neg (fun h : p.1 = k' => hk ((hp.symm.trans h).symm))]
    · rw [show (if p.1 == k then ((k, v) : String × α) else p) = p by
        simp [Bool.eq_false_iff.mpr (fun hb => hp (beq_iff_eq.mp hb))]]
      rw [lookupAssoc_cons, List.find?_cons]
      rw [show (p.1 == k) = false from
        Bool.eq_false_iff.mpr (fun hb => hp (beq_iff_eq.mp hb))]
      by_cases hpk' : p.1 = k'
      · have hk : ¬ k' = k := fun h => hp (hpk'.trans h)
        rw [if_pos hpk', if_neg hk, lookupAssoc_cons, if_pos hpk']
      · rw [if_neg hpk', ih, lookupAssoc_cons, if_neg hpk']

theorem lookupAssoc_append_single {α : Type} (xs : List (String × α))
    (k k' : String) (v : α) (habsent : xs.find? (fun p => p.1 == k) = none) :
    lookupAssoc (xs ++ [(k, v)]) k' =
      if k' = k then some v else lookupAssoc xs k' := by
  induction xs with
  | nil =>
    rw [List.nil_append, lookupAssoc_cons]
    by_cases hk : k' = k
    · rw [if_pos (show ((k, v) : String × α).1 = k' from hk.symm), if_pos hk]
    · rw [if_neg (show ¬ ((k, v) : String × α).1 = k' from fun h => hk h.symm),
        if_neg hk]
  | cons p ps ih =>
    obtain ⟨hfp, hps⟩ := find?_eq_none_cons habsent
    rw [List.cons_append, lookupAssoc_cons, lookupAssoc_cons]
    by_cases hpk' : p.1 = k'
    · have hk : ¬ k' = k := fun h => hfp (hpk'.trans h)
      rw [if_pos hpk', if_neg hk, if_pos hpk']
    · rw [if_neg hpk', if_neg hpk', ih hps]

theorem lookupAssoc_assocSet {α : Type} (xs : List (String × α))
    (k k' : String) (v : α) :
    lookupAssoc (assocSet xs k v) k' =
      if k' = k then some v else lookupAssoc xs k' := by
  rw [assocSet]
  cases hfind : xs.find? (fun p => p.1 == k) with
  | none =>
    rw [if_neg (show ¬ ((none : Option (String × α)).isSome = true) by simp)]
    exact lookupAssoc_append_single xs k k' v hfind
  | some q =>
    rw [if_pos (show (some q).isSome = true from rfl)]
    rw [lookupAssoc_map_overwrite, hfind]
    rfl

theorem keys_assocSet {α : Type} (xs : List (String × α)) (k : String) (v : α) :
    (assocSet xs k v).map (fun p => p.1) =
      if (xs.find? (fun p => p.1 == k)).isSome then xs.map (fun p => p.1)
      else xs.map (fun p => p.1) ++ [k] := by
  rw [assocSet]
  by_cases hfind : (xs.find? (fun p => p.1 == k)).isSome
  · rw [if_pos hfind, if_pos hfind, List.map_map]
    apply List.map_congr_left
    intro p _
    by_cases hp : p.1 = k
    · simp [hp]
    · simp [hp]
  · rw [if_neg hfind, if_neg hfind, List.map_append]
    rfl

theorem nodup_keys_assocSet {α : Type} (xs : List (String × α)) (k : String)
    (v : α) (h : (xs.map (fun p => p.1)).Nodup) :
    ((assocSet xs k v).map (fun p => p.1)).Nodup := by
  rw [keys_assocSet]
  by_cases hfind : (xs.find? (fun p => p.1 == k)).isSome
  · rw [if_pos hfind]; exact h
  · have hnone : xs.find? (fun p => p.1 == k) = none :=
      Option.not_isSome_iff_eq_none.mp hfind
    have hk : k ∉ xs.map (fun p => p.1) := by
      intro hmem
      obtain ⟨p, hp, hpk⟩ := List.mem_map.mp hmem
      have := List.find?_eq_none.mp hnone p hp
      exact this (beq_iff_eq.mpr hpk)
    rw [if_neg hfind, List.nodup_append]
    exact ⟨h, List.nodup_singleton k, by simpa using hk⟩

theorem nodup_keys_foldl_assocSet {α : Type} (l : List (String × α)) :
    ∀ init : List (String × α), (init.map (fun p => p.1)).Nodup →
      ((l.foldl (fun m kv => assocSet m kv.1 kv.2) init).map
        (fun p => p.1)).Nodup := by
  induction l with
  | nil => intro init h; exact h
  | cons kv l ih =>
    intro init h
    exact ih (assocSet init kv.1 kv.2) (nodup_keys_assocSet init kv.1 kv.2 h)

theorem lookupAssoc_foldl_assocSet {α : Type} (l : List (String × α))
    (k : String) :
    lookupAssoc (l.foldl (fun m kv => assocSet m kv.1 kv.2) []) k =
      ((l.filter (fun kv => kv.1 == k)).getLast?).map (fun kv => kv.2) := by
  induction l using List.reverseRecOn with
  | nil => rfl
  | append_singleton l x ih =>
    rw [List.foldl_append, List.foldl_cons, List.foldl_nil,
      lookupAssoc_assocSet, List.filter_append]
    by_cases hk : k = x.1
    · have hxb : (x.1 == k) = true := beq_iff_eq.mpr hk.symm
      rw [if_pos hk, List.filter_cons, if_pos hxb, List.filter_nil,
        List.getLast?_concat]
      rfl
    · have hxb : (x.1 == k) = false :=
        Bool.eq_false_iff.mpr (fun hb => hk (beq_iff_eq.mp hb).symm)
      rw [if_neg hk, List.filter_cons, if_neg (by simp [hxb]), List.filter_nil,
        List.append_nil]
      exact ih

/-! ### C7 — definition deduplication -/

/-- Claim C7, counterexample: regions containing a placeholder variant
`Definition/MyDef/#` followed by a plain variant `Definition/MyDef` retain
the plain variant — `Map.set` overwrites, so the last-scanned variant wins,
not the placeholder-requiring one.  (Both variants were scanned, the
placeholder one first.) -/
theorem findDefinitions_placeholder_variant_loses :
    (lookupAssoc (findDefinitionsInDocument
        ["(Definition/MyDef/#, (X)), (Definition/MyDef, (Y))"]) "mydef").map
      (fun d => (d.name, d.hasPlaceholder)) = some ("MyDef", false) ∧
    (documentDefs ["(Definition/MyDef/#, (X)), (Definition/MyDef, (Y))"]).map
      (fun kv => (kv.1, kv.2.hasPlaceholder)) =
      [("mydef", true), ("mydef", false)] := by
  constructor
  · decide
  · decide

/-- Claim C7, amended: the extracted definition map contains exactly one
entry per lowercased definition name (its keys are pairwise distinct), and
the retained entry for a name is the variant scanned last in region order —
later occurrences overwrite earlier ones regardless of the placeholder
marker. -/
theorem findDefinitions_dedup_last_wins (regions : List String) :
    (((findDefinitionsInDocument regions).map (fun kv => kv.1)).Nodup) ∧
    ∀ k, lookupAssoc (findDefinitionsInDocument regions) k =
      (((documentDefs regions).filter (fun kv => kv.1 == k)).getLast?).map
        (fun kv => kv.2) := by
  constructor
  · exact nodup_keys_foldl_assocSet (documentDefs regions) [] List.nodup_nil
  · intro k
    exact lookupAssoc_foldl_assocSet (documentDefs regions) k

/-! ### C5 — `getChildTags` across merged namespaces -/

theorem schemaEntryToHedTag_eq_none_iff (e : SchemaEntry) (pfx : String) :
    schemaEntryToHedTag e pfx = none ↔ (pfx ≠ "" ∧ ¬ isTagFromLibrary e pfx) := by
  rw [schemaEntryToHedTag]
  by_cases h : pfx ≠ "" ∧ ¬ isTagFromLibrary e pfx
  · rw [if_pos h]
    simp [h]
  · rw [if_neg h]
    exact ⟨fun hc => by simp at hc, fun hrhs => absurd hrhs h⟩

theorem schemaEntryToHedTag_parent (e : SchemaEntry) (pfx : String)
    (t : HedTag) (h : schemaEntryToHedTag e pfx = some t) :
    t.parent = (match e.parent with
      | some n => if n = "" then none else some n
      | none => none) := by
  rw [schemaEntryToHedTag] at h
  by_cases hg : pfx ≠ "" ∧ ¬ isTagFromLibrary e pfx
  · rw [if_pos hg] at h
    cases h
  · rw [if_neg hg] at h
    cases h
    rfl

theorem isTagFromLibrary_base (e : SchemaEntry) : isTagFromLibrary e "" = true := by
  rw [isTagFromLibrary, if_pos rfl]

theorem filterMap_ite {α β : Type} (c : α → Bool) (h : α → Option β)
    (es : List α) :
    es.filterMap (fun e => if c e then h e else none) =
      (es.filter c).filterMap h := by
  induction es with
  | nil => rfl
  | cons e es ih =>
    rw [List.filterMap_cons, List.filter_cons]
    cases hc : c e with
    | false =>
      simp only [Bool.false_eq_true, if_false]
      exact ih
    | true =>
      simp only [if_true]
      rw [List.filterMap_cons, ih]

theorem childTags_entry_pointwise (e : SchemaEntry) (pfx clean : String) :
    (match e.parent with
      | some pname =>
        if jsToLower pname == jsToLower clean then schemaEntryToHedTag e pfx
        else none
      | none => none) =
      (if (isTagFromLibrary e pfx &&
          match e.parent with
          | some pname => jsToLower pname == jsToLower clean
          | none => false) then schemaEntryToHedTag e pfx else none) := by
  cases hpar : e.parent with
  | none => simp
  | some pname =>
    cases hmatch : (jsToLower pname == jsToLower clean) with
    | false => simp [hmatch]
    | true =>
      cases hlib : isTagFromLibrary e pfx with
      | true => simp [hlib]
      | false =>
        simp only [hmatch, if_true, Bool.false_and, Bool.false_eq_true,
          if_false]
        apply (schemaEntryToHedTag_eq_none_iff e pfx).mpr
        refine ⟨?_, by simp [hlib]⟩
        intro hp
        rw [hp, isTagFromLibrary_base] at hlib
        cases hlib

theorem childTags_per_schema (tags : List (String × SchemaEntry))
    (pfx clean : String) :
    tags.filterMap (fun ke =>
        match ke.2.parent with
        | some pname =>
          if jsToLower pname == jsToLower clean then
            schemaEntryToHedTag ke.2 pfx
          else none
        | none => none) =
      ((tags.map (fun ke => ke.2)).filter (fun e =>
          isTagFromLibrary e pfx &&
          match e.parent with
          | some pname => jsToLower pname == jsToLower clean
          | none => false)).filterMap (fun e => schemaEntryToHedTag e pfx) := by
  rw [← filterMap_ite]
  rw [List.filterMap_map]
  apply List.filterMap_congr
  intro ke _
  exact childTags_entry_pointwise ke.2 pfx clean

theorem foldl_append_eq_flatten {β γ : Type} (F : β → List γ) (l : List β) :
    ∀ acc : List γ,
      l.foldl (fun a sp => a ++ F sp) acc = acc ++ (l.map F).flatten := by
  induction l with
  | nil => intro acc; simp
  | cons b bs ih =>
    intro acc
    rw [List.foldl_cons, ih, List.map_cons, List.flatten_cons, List.append_assoc]

/-- Claim C5: for every parent name `p`, `getChildTags` returns exactly the
tags drawn from the base namespace and every merged library namespace (an
entry belongs to a library namespace iff its `inLibrary` membership
attribute matches that namespace's prefix) whose parent name equals `p`
case-insensitively after stripping any library prefix from `p`; and no tag
with a differently-named parent is ever returned. -/
theorem getChildTags_matches_spec (schemas : Schemas) (p : String) :
    getChildTags schemas p = childTagsSpec schemas p ∧
    ∀ t ∈ getChildTags schemas p, ∀ n, t.parent = some n →
      jsToLower n = jsToLower (cleanParentName p) := by
  constructor
  · rw [getChildTags, childTagsSpec]
    have hpointwise : ∀ sp : Schema × String,
        sp.1.tags.filterMap (fun ke =>
          match ke.2.parent with
          | some pname =>
            if jsToLower pname == jsToLower (cleanParentName p) then
              schemaEntryToHedTag ke.2 sp.2
            else none
          | none => none) =
        ((sp.1.tags.map (fun ke => ke.2)).filter (fun e =>
            isTagFromLibrary e sp.2 &&
            match e.parent with
            | some pname => jsToLower pname == jsToLower (cleanParentName p)
            | none => false)).filterMap (fun e => schemaEntryToHedTag e sp.2) :=
      fun sp => childTags_per_schema sp.1.tags sp.2 (cleanParentName p)
    rw [foldl_append_eq_flatten, foldl_append_eq_flatten]
    simp only [List.nil_append]
    congr 1
    exact List.map_congr_left (fun sp _ => hpointwise sp)
  · intro t ht n hn
    rw [getChildTags] at ht
    rw [foldl_append_eq_flatten] at ht
    simp only [List.nil_append] at ht
    obtain ⟨sub, hsub, htsub⟩ := List.mem_flatten.mp ht
    obtain ⟨sp, _, rfl⟩ := List.mem_map.mp hsub
    obtain ⟨ke, _, hke⟩ := List.mem_filterMap.mp htsub
    cases hpar : ke.2.parent with
    | none => simp [hpar] at hke
    | some pname =>
      simp only [hpar] at hke
      by_cases hmatch : jsToLower pname == jsToLower (cleanParentName p)
      · rw [if_pos hmatch] at hke
        have hpt := schemaEntryToHedTag_parent ke.2 sp.2 t hke
        simp only [hpar] at hpt
        by_cases hemp : pname = ""
        · rw [hemp] at hpt
          simp at hpt
          rw [hpt] at hn
          cases hn
        · rw [if_neg hemp] at hpt
          rw [hpt] at hn
          cases hn
          exact beq_iff_eq.mp hmatch
      · rw [if_neg hmatch] at hke
        cases hke

/-- Witness for C5 at a concrete schema table: one base entry under parent
`Event`. -/
theorem getChildTags_matches_spec_witness :
    getChildTags
      ⟨some ⟨[("Sensory-event",
          ⟨"Sensory-event", "Sensory-event", "Event/Sensory-event", "",
            some "Event", "", none, [], [], [], [], none⟩)]⟩, []⟩ "Event" =
    childTagsSpec
      ⟨some ⟨[("Sensory-event",
          ⟨"Sensory-event", "Sensory-event", "Event/Sensory-event", "",
            some "Event", "", none, [], [], [], [], none⟩)]⟩, []⟩ "Event" :=
  (getChildTags_matches_spec
    ⟨some ⟨[("Sensory-event",
        ⟨"Sensory-event", "Sensory-event", "Event/Sensory-event", "",
          some "Event", "", none, [], [], [], [], none⟩)]⟩, []⟩ "Event").1

/-! ### C6 — completion-context classification -/

theorem head?_dropWhile_eq_find? {α : Type} (p : α → Bool) (m : List α) :
    (m.dropWhile p).head? = m.find? (fun c => !p c) := by
  induction m with
  | nil => rfl
  | cons a as ih =>
    cases hp : p a with
    | true => simp [List.dropWhile_cons, List.find?_cons, hp, ih]
    | false => simp [List.dropWhile_cons, List.find?_cons, hp]

theorem getLast?_trimR_eq_lastNonSpace (content : List Char) (offset : ℕ) :
    (trimR (content.take offset)).getLast? = lastNonSpaceBefore content offset := by
  rw [lastNonSpaceBefore, trimR, List.getLast?_reverse, trimL,
    head?_dropWhile_eq_find?]

/-- Claim C6, counterexample: for content `"/abc"` with the cursor at
offset 4, the token in progress is `"/abc"`, which contains a `'/'` — the
claim's rule 3 then requires a child context with parent `""` and prefix
`"abc"` — but because the only slash is at index 0 (`lastIndexOf = 0`,
not `> 0`) the code returns a partial context with prefix `"/abc"`. -/
theorem analyzeCompletionContext_leading_slash_counterexample :
    analyzeCompletionContext "/abc".data 4 =
      { type := .partialTok, prefixStr := some "/abc", afterSeparator := false } ∧
    getTagAtOffset "/abc".data 4 = some ⟨"/abc".data, 0, 4⟩ ∧
    lastIndexOf "/abc".data '/' = 0 := by
  refine ⟨?_, ?_, ?_⟩ <;> decide

/-- Claim C6, amended: `analyzeCompletionContext` classifies the cursor by
the last non-space character before it: a `'/'` yields a child context
whose parent is the `[A-Za-z0-9_-]+` token immediately preceding the slash
when such a token exists (otherwise the analysis falls through to the
token rules); `','` or `'('` yields a top-level context marked as after a
separator; otherwise the token in progress decides: a token containing a
`'/'` at positive index is a child context split at the last slash (parent
before, prefix after), any other token — including one whose only slash is
at index 0 — is a partial context with the token as prefix, and no token
yields a top-level context not marked as after a separator. -/
theorem analyzeCompletionContext_rules (content : List Char) (offset : ℕ) :
    (∀ tok, lastNonSpaceBefore content offset = some '/' →
      parentBeforeSlash (content.take offset) = some tok →
      analyzeCompletionContext content offset =
        { type := .child, parentTag := some ⟨tok⟩, afterSeparator := true }) ∧
    (lastNonSpaceBefore content offset = some '/' →
      parentBeforeSlash (content.take offset) = none →
      analyzeCompletionContext content offset = tokenContext content offset) ∧
    ((lastNonSpaceBefore content offset = some ',' ∨
      lastNonSpaceBefore content offset = some '(') →
      analyzeCompletionContext content offset =
        { type := .topLevel, afterSeparator := true }) ∧
    ((lastNonSpaceBefore content offset ≠ some '/' ∧
      lastNonSpaceBefore content offset ≠ some ',' ∧
      lastNonSpaceBefore content offset ≠ some '(') →
      analyzeCompletionContext content offset = tokenContext content offset) ∧
    (∀ info, getTagAtOffset content offset = some info →
      0 < lastIndexOf info.tagText '/' →
      tokenContext content offset =
        { type := .child
          parentTag := some ⟨info.tagText.take (lastIndexOf info.tagText '/').toNat⟩
          prefixStr := some ⟨info.tagText.drop
            ((lastIndexOf info.tagText '/').toNat + 1)⟩
          afterSeparator := false }) ∧
    (∀ info, getTagAtOffset content offset = some info →
      ¬ 0 < lastIndexOf info.tagText '/' →
      tokenContext content offset =
        { type := .partialTok, prefixStr := some ⟨info.tagText⟩,
          afterSeparator := false }) ∧
    (getTagAtOffset content offset = none →
      tokenContext content offset =
        { type := .topLevel, afterSeparator := false }) := by
  have hlink := getLast?_trimR_eq_lastNonSpace content offset
  refine ⟨?_, ?_, ?_, ?_, ?_, ?_, ?_⟩
  · intro tok h1 h2
    rw [analyzeCompletionContext]
    rw [hlink, h1, if_pos rfl, h2]
  · intro h1 h2
    rw [analyzeCompletionContext]
    rw [hlink, h1, if_pos rfl, h2]
  · intro h
    rw [analyzeCompletionContext, hlink]
    rcases h with h | h
    · rw [h, if_neg (by simp), if_pos (by simp)]
    · rw [h, if_neg (by simp), if_pos (by simp)]
  · intro ⟨h1, h2, h3⟩
    rw [analyzeCompletionContext, hlink,
      if_neg h1, if_neg (by
        intro hor
        rcases hor with h | h
        · exact h2 h
        · exact h3 h)]
  · intro info hinfo hslash
    rw [tokenContext, hinfo]
    simp only [if_pos hslash]
  · intro info hinfo hslash
    rw [tokenContext, hinfo]
    simp only [if_neg hslash]
  · intro hnone
    rw [tokenContext, hnone]

/-- Witness for the amended C6 theorem: after `"Event/"` the context is a
child context with parent `Event`. -/
theorem analyzeCompletionContext_rules_witness :
    analyzeCompletionContext "Event/".data 6 =
      { type := .child, parentTag := some "Event", afterSeparator := true } :=
  (analyzeCompletionContext_rules "Event/".data 6).1 "Event".data
    (by decide) (by decide)

/-! ### C4 — boundary-safe tag search -/

theorem indexOfAux_some (hay needle : List Char) :
    ∀ fuel start j, indexOfAux hay needle fuel start = some j →
      start ≤ j ∧ j ≤ hay.length ∧ needle.isPrefixOf (hay.drop j) = true ∧
      ∀ i, start ≤ i → i < j → needle.isPrefixOf (hay.drop i) = false := by
  intro fuel
  induction fuel with
  | zero => intro start j h; cases h
  | succ fuel ih =>
    intro start j h
    rw [indexOfAux] at h
    by_cases hlen : start > hay.length
    · rw [if_pos hlen] at h; cases h
    · rw [if_neg hlen] at h
      cases hpre : needle.isPrefixOf (hay.drop start) with
      | true =>
        rw [if_pos hpre] at h
        cases h
        exact ⟨le_rfl, by omega, hpre, fun i h1 h2 => by omega⟩
      | false =>
        rw [if_neg (by simp [hpre])] at h
        obtain ⟨h1, h2, h3, h4⟩ := ih (start + 1) j h
        refine ⟨by omega, h2, h3, ?_⟩
        intro i hi1 hi2
        rcases Nat.eq_or_lt_of_le hi1 with rfl | hi1'
        · exact hpre
        · exact h4 i hi1' hi2

theorem indexOfAux_none (hay needle : List Char) :
    ∀ fuel start, hay.length + 1 - start < fuel →
      indexOfAux hay needle fuel start = none →
      ∀ i, start ≤ i → i ≤ hay.length →
        needle.isPrefixOf (hay.drop i) = false := by
  intro fuel
  induction fuel with
  | zero => intro start hf; omega
  | succ fuel ih =>
    intro start hf h
    rw [indexOfAux] at h
    by_cases hlen : start > hay.length
    · intro i hi1 hi2
      omega
    · rw [if_neg hlen] at h
      cases hpre : needle.isPrefixOf (hay.drop start) with
      | true => rw [if_pos hpre] at h; cases h
      | false =>
        rw [if_neg (by simp [hpre])] at h
        intro i hi1 hi2
        rcases Nat.eq_or_lt_of_le hi1 with rfl | hi1'
        · exact hpre
        · exact ih (start + 1) (by omega) h i hi1' hi2

theorem indexOfFrom_some (hay needle : List Char) (start j : ℕ)
    (h : indexOfFrom hay needle start = some j) :
    start ≤ j ∧ j ≤ hay.length ∧ needle.isPrefixOf (hay.drop j) = true ∧
    ∀ i, start ≤ i → i < j → needle.isPrefixOf (hay.drop i) = false :=
  indexOfAux_some hay needle (hay.length + 2) start j h

theorem indexOfFrom_none (hay needle : List Char) (start : ℕ)
    (h : indexOfFrom hay needle start = none) :
    ∀ i, start ≤ i → i ≤ hay.length → needle.isPrefixOf (hay.drop i) = false :=
  indexOfAux_none hay needle (hay.length + 2) start (by omega) h

theorem findTagLoop_some (hedData : List Char) (tagLen : ℕ)
    (lowerHed lowerTag : List Char) :
    ∀ fuel i s e, lowerTag.isPrefixOf (lowerHed.drop i) = true →
      findTagLoop hedData tagLen lowerHed lowerTag fuel i = some (s, e) →
      lowerTag.isPrefixOf (lowerHed.drop s) = true ∧
      boundaryOk hedData tagLen s = true ∧ e = s + tagLen := by
  intro fuel
  induction fuel with
  | zero => intro i s e _ h; cases h
  | succ fuel ih =>
    intro i s e hocc h
    rw [findTagLoop] at h
    cases hb : boundaryOk hedData tagLen i with
    | true =>
      rw [if_pos hb] at h
      cases h
      exact ⟨hocc, hb, rfl⟩
    | false =>
      rw [if_neg (by simp [hb])] at h
      cases hidx : indexOfFrom lowerHed lowerTag (i + 1) with
      | none => rw [hidx] at h; cases h
      | some j =>
        rw [hidx] at h
        obtain ⟨_, _, hoccj, _⟩ := indexOfFrom_some lowerHed lowerTag (i + 1) j hidx
        exact ih j s e hoccj h

theorem findTagLoop_none (hedData : List Char) (tagLen : ℕ)
    (lowerHed lowerTag : List Char) :
    ∀ fuel i, lowerHed.length + 1 - i ≤ fuel →
      findTagLoop hedData tagLen lowerHed lowerTag fuel i = none →
      ∀ j, i ≤ j → j ≤ lowerHed.length →
        ¬(lowerTag.isPrefixOf (lowerHed.drop j) = true ∧
          boundaryOk hedData tagLen j = true) := by
  intro fuel
  induction fuel with
  | zero =>
    intro i hf h j hj1 hj2
    omega
  | succ fuel ih =>
    intro i hf h j hj1 hj2
    rw [findTagLoop] at h
    cases hb : boundaryOk hedData tagLen i with
    | true => rw [if_pos hb] at h; cases h
    | false =>
      rw [if_neg (by simp [hb])] at h
      rcases Nat.eq_or_lt_of_le hj1 with rfl | hj1'
      · intro ⟨_, hbj⟩
        rw [hb] at hbj
        cases hbj
      · cases hidx : indexOfFrom lowerHed lowerTag (i + 1) with
        | none =>
          intro ⟨hocc, _⟩
          have := indexOfFrom_none lowerHed lowerTag (i + 1) hidx j hj1' hj2
          rw [this] at hocc
          cases hocc
        | some k =>
          rw [hidx] at h
          obtain ⟨hk1, hk2, _, hkmin⟩ :=
            indexOfFrom_some lowerHed lowerTag (i + 1) k hidx
          by_cases hjk : j < k
          · intro ⟨hocc, _⟩
            have := hkmin j hj1' hjk
            rw [this] at hocc
            cases hocc
          · exact ih k (by omega) h j (by omega) hj2

/-- Claim C4, counterexample: `findTagInString "Animal/Dog" "Animal"`
returns bounds `(0, 6)` although the character following the occurrence is
`'/'`, which is not in the claim's follow set (separator, space, or end of
string) — the code additionally accepts `'/'` as a following boundary
character. -/
theorem findTagInString_slash_counterexample :
    findTagInString "Animal/Dog" "Animal" = some (0, 6) ∧
    "Animal/Dog".data.getD 6 ' ' = '/' := by
  constructor
  · decide
  · decide

/-- Claim C4, amended: `findTagInString` performs a case-insensitive scan
of the original string and returns bounds only at an occurrence both of
whose boundary characters are acceptable — the preceding character a
separator `','`/`'('`/`')'`, a space, or start of string; the following
character a separator, a space, **a slash `'/'`**, or end of string (the
boundary test `boundaryOk` transcribes the source); the returned end is
start plus the tag length; when no boundary-respecting occurrence exists it
returns `none` (searching for `"Animal"` in `"Animal-agent, Event"` finds
nothing). -/
theorem findTagInString_boundary_spec :
    (∀ (h t : String) (s e : ℕ), findTagInString h t = some (s, e) →
      e = s + t.data.length ∧
      (t.data.map Char.toLower).isPrefixOf
        ((h.data.map Char.toLower).drop s) = true ∧
      boundaryOk h.data t.data.length s = true) ∧
    (∀ (h t : String), findTagInString h t = none →
      ∀ i, i ≤ h.data.length →
        ¬((t.data.map Char.toLower).isPrefixOf
            ((h.data.map Char.toLower).drop i) = true ∧
          boundaryOk h.data t.data.length i = true)) ∧
    findTagInString "Animal-agent, Event" "Animal" = none := by
  have hlen : ∀ h : String,
      (h.data.map Char.toLower).length = h.data.length := fun h =>
    List.length_map h.data Char.toLower
  refine ⟨?_, ?_, by decide⟩
  · intro h t s e hfind
    rw [findTagInString] at hfind
    cases hidx : indexOfFrom (h.data.map Char.toLower)
        (t.data.map Char.toLower) 0 with
    | none => rw [hidx] at hfind; cases hfind
    | some i =>
      rw [hidx] at hfind
      obtain ⟨_, _, hocc, _⟩ :=
        indexOfFrom_some (h.data.map Char.toLower) (t.data.map Char.toLower) 0
          i hidx
      obtain ⟨h1, h2, h3⟩ := findTagLoop_some h.data t.data.length
        (h.data.map Char.toLower) (t.data.map Char.toLower)
        (h.data.length + 1) i s e hocc hfind
      exact ⟨h3, h1, h2⟩
  · intro h t hfind i hi
    rw [findTagInString] at hfind
    cases hidx : indexOfFrom (h.data.map Char.toLower)
        (t.data.map Char.toLower) 0 with
    | some j =>
      rw [hidx] at hfind
      obtain ⟨_, hj2, _, hjmin⟩ :=
        indexOfFrom_some (h.data.map Char.toLower) (t.data.map Char.toLower) 0
          j hidx
      by_cases hij : i < j
      · intro ⟨hocc, _⟩
        have := hjmin i (Nat.zero_le i) hij
        rw [this] at hocc
        cases hocc
      · exact findTagLoop_none h.data t.data.length
          (h.data.map Char.toLower) (t.data.map Char.toLower)
          (h.data.length + 1) j (by rw [hlen]; omega) hfind i (by omega)
          (by rw [hlen]; exact hi)
    | none =>
      intro ⟨hocc, _⟩
      have := indexOfFrom_none (h.data.map Char.toLower)
        (t.data.map Char.toLower) 0 hidx i (Nat.zero_le i)
        (by rw [hlen]; exact hi)
      rw [this] at hocc
      cases hocc

/-- Witness for the amended C4 theorem at `"Animal/Dog"`, where the
accepted follow character is the slash. -/
theorem findTagInString_boundary_spec_witness :
    (6 : ℕ) = 0 + "Animal".data.length ∧
    ("Animal".data.map Char.toLower).isPrefixOf
      (("Animal/Dog".data.map Char.toLower).drop 0) = true ∧
    boundaryOk "Animal/Dog".data "Animal".data.length 0 = true :=
  findTagInString_boundary_spec.1 "Animal/Dog" "Animal" 0 6 (by decide)

end HedLsp
